import Mathlib

/-!
Verification of the coverage engine of the adolphus repository
(`coverage/camera.py`).

The Python code computes with IEEE floats; the embedding idealizes float
arithmetic as exact arithmetic in a linear ordered field with a floor
function.  The grid / occlusion layer (`Scene`) is translated generically
over such a field `K`, so that theorems can be stated over any such field
and concrete witnesses can be evaluated over `ℚ` by `decide`.  The camera
fuzzy model uses the transcendental functions `sin`, `cos`, `atan`, `sqrt`
and the constant `pi`, so it is embedded over `ℝ`.

The repository's `geometry` module and the third-party `fuzz` library are
imported by `coverage/camera.py` but their sources are not part of the
code under verification; the few pieces of them the claims depend on
(points, poses, trapezoidal fuzzy numbers, fuzzy sets, the name-indexed
camera set) are modelled from the specification, and each such definition
is marked `Modelled from the spec:` in its doc comment.
-/

namespace Adolphus

/-- Modelled from the spec: `geometry.Point`, a 3-tuple of coordinates
(the positional part only; see `DPt` for directional points). -/
structure Pt3 (K : Type) where
  x : K
  y : K
  z : K
deriving DecidableEq

/-- Component access `p[i]` used by `Scene.occluded`. -/
def Pt3.get {K : Type} (p : Pt3 K) : Fin 3 → K
  | ⟨0, _⟩ => p.x
  | ⟨1, _⟩ => p.y
  | ⟨2, _⟩ => p.z

/-- Component assignment `P[i] = v` used by `Scene.occluded`. -/
def Pt3.set {K : Type} (p : Pt3 K) : Fin 3 → K → Pt3 K
  | ⟨0, _⟩, v => Pt3.mk v p.y p.z
  | ⟨1, _⟩, v => Pt3.mk p.x v p.z
  | ⟨2, _⟩, v => Pt3.mk p.x p.y v

/-- Modelled from the spec: `geometry.DirectionalPoint` is a point with two
direction angles (rho, eta); `Camera.mu` also accepts plain points, which is
modelled by `dir = none`. -/
structure DPt (K : Type) where
  x : K
  y : K
  z : K
  dir : Option (K × K)
deriving DecidableEq

/-- Positional part of a (possibly directional) point, used where the Python
code passes a `DirectionalPoint` to an API that reads only `p[0..2]`. -/
def DPt.pos {K : Type} (p : DPt K) : Pt3 K := Pt3.mk p.x p.y p.z

variable {K : Type} [LinearOrderedField K] [FloorRing K]

/-- Python `int(v)`: truncation of a float toward zero. -/
def itrunc (v : K) : ℤ := if v < 0 then -⌊-v⌋ else ⌊v⌋

/-- The voxel snap `int(v / pstep) * pstep` used throughout `Scene.occluded`. -/
def snap (pstep v : K) : K := (itrunc (v / pstep) : ℤ) * pstep

/-- Python float `%` (as used in `Scene.make_opaque`): `v % m = v - ⌊v/m⌋*m`. -/
def fmod (v m : K) : K := v - ⌊v / m⌋ * m

/-- `numpy.arange(start, stop, step)` for a positive step: the values
`start + i*step` for `0 ≤ i < ⌈(stop-start)/step⌉`. -/
def arange (start stop step : K) : List K :=
  (List.range (⌈(stop - start) / step⌉).toNat).map (fun i : ℕ => start + (i : K) * step)

/-- `Scene`: discrete spatial-directional range with occlusion.  The set of
opaque voxels (`self.opaque` in the source) is the field `opq`. -/
structure Scene (K : Type) [LinearOrderedField K] where
  xr : K × K
  yr : K × K
  zr : K × K
  pstep : K
  dstep : K
  opq : Finset (Pt3 K)

/-- `Scene.make_opaque`: add a point to the set of opaque voxels, failing
(`none`, for the Python `ValueError`) when some coordinate is not on the
`pstep` grid. -/
def Scene.make_opaque (s : Scene K) (p : Pt3 K) : Option (Scene K) :=
  if fmod p.x s.pstep ≠ 0 ∨ fmod p.y s.pstep ≠ 0 ∨ fmod p.z s.pstep ≠ 0 then
    none
  else
    some (Scene.mk s.xr s.yr s.zr s.pstep s.dstep (insert p s.opq))

/-- The direction pairs `(rho, eta)` produced by the two inner loops of
`Scene.generate_points` for one grid cell: `rho` ranges over
`arange(0, pi + dstep, dstep)`; a pole (`rho in [0, pi]`) yields the single
pair `(rho, 0)`, any other `rho` is crossed with
`eta` in `arange(0, 2*pi, dstep)`.  The float constant `math.pi` is passed
as the parameter `piv`. -/
def dirPairs (dstep piv : K) : List (K × K) :=
  (arange 0 (piv + dstep) dstep).flatMap (fun rho =>
    if rho = 0 ∨ rho = piv then [(rho, (0 : K))]
    else (arange 0 (2 * piv) dstep).map (fun eta => (rho, eta)))

/-- The directional points `Scene.generate_points` yields for one grid cell:
nothing if the cell is opaque, otherwise the cell crossed with `dirPairs`. -/
def cellPoints (s : Scene K) (piv : K) (x y z : K) : List (DPt K) :=
  if Pt3.mk x y z ∈ s.opq then []
  else (dirPairs s.dstep piv).map (fun pr => DPt.mk x y z (some pr))

/-- `Scene.generate_points`: the triple loop over
`arange(x0, x1, pstep) × arange(y0, y1, pstep) × arange(z0, z1, pstep)`,
skipping opaque cells, each remaining cell crossed with the sampled
directions.  `piv` stands for the float constant `math.pi`. -/
def Scene.generate_points (s : Scene K) (piv : K) : List (DPt K) :=
  (arange s.xr.1 s.xr.2 s.pstep).flatMap (fun x =>
    (arange s.yr.1 s.yr.2 s.pstep).flatMap (fun y =>
      (arange s.zr.1 s.zr.2 s.pstep).flatMap (fun z =>
        cellPoints s piv x y z)))

/-- The Python idiom `cond and v or 0` used for the neighbour-voxel offsets
in `Scene.occluded`.  (When `cond` holds it evaluates to `v` unless `v` is
the float `0.0`, in which case it evaluates to the integer `0`; either way
its numeric value is `v`, so it is translated as `if cond then v else 0`.) -/
def pyAndOr (c : Prop) [Decidable c] (v : K) : K := if c then v else 0

/-- A neighbour voxel of `P` offset along axis `a`, with the per-component
steps `s[0], s[1], s[2]` exactly as in the source:
`Point(P[0] + (a==0 and s[0] or 0), P[1] + (a==1 and s[1] or 0), P[2] + (a==2 and s[2] or 0))`. -/
def nbrVox (P s : Pt3 K) (a : Fin 3) : Pt3 K :=
  Pt3.mk (P.x + pyAndOr (a = 0) (s.get 0)) (P.y + pyAndOr (a = 1) (s.get 1))
    (P.z + pyAndOr (a = 2) (s.get 2))

/-- A corner voxel of `P` offset along the two axes `a` and `b`; the source
uses the step `s[0]` for every component here (not `s[i]`):
`Point(P[0] + (a==0 and s[0] or 0) + (b==0 and s[0] or 0), ...)`. -/
def cornerVox (P : Pt3 K) (s0 : K) (a b : Fin 3) : Pt3 K :=
  Pt3.mk (P.x + pyAndOr (a = 0) s0 + pyAndOr (b = 0) s0)
    (P.y + pyAndOr (a = 1) s0 + pyAndOr (b = 1) s0)
    (P.z + pyAndOr (a = 2) s0 + pyAndOr (b = 2) s0)

/-- The loop-invariant data of `Scene.occluded`: spatial step, per-axis
signed steps `s`, deltas `d`, the driving axis `ax` and secondary axes
`ay`, `az`, the driving-axis target `P2`, and the error increments.  (The
opaque set, which the loop reads only in its early-return opacity tests,
is passed to `occLoop` separately.) -/
structure OccCtx (K : Type) where
  pstep : K
  s : Pt3 K
  d : Pt3 K
  ax : Fin 3
  ay : Fin 3
  az : Fin 3
  P2 : K
  dxy : K
  d1xy : K
  dxz : K
  d1xz : K

/-- The mutable state of the traversal loop of `Scene.occluded`: the current
voxel `P` and the two accumulated error terms. -/
structure OccSt (K : Type) where
  P : Pt3 K
  exy : K
  exz : K

/-- One iteration of the voxel-traversal loop body of `Scene.occluded`
(lines 127-198 of the source), with the opacity tests factored out: it
returns the list of voxels the body tests against the opaque set, in source
order, together with the updated loop state.  The branch structure, the
tested voxels (including the source's use of `s[0]` for every component of
the corner voxels) and the state updates follow the source line by line. -/
def occTests (c : OccCtx K) (st : OccSt K) : List (Pt3 K) × OccSt K :=
  if st.exy > 0 then
    if st.exz > 0 then
      let t1 := if st.exy * c.d.get c.az > st.exz * c.d.get c.ay then
          nbrVox st.P c.s c.ay
        else
          nbrVox st.P c.s c.az
      let t2 := cornerVox st.P (c.s.get 0) c.ay c.az
      let Pn := Pt3.mk (st.P.x + c.s.get 0) (st.P.y + c.s.get 1) (st.P.z + c.s.get 2)
      ([t1, t2, Pn], OccSt.mk Pn (st.exy + c.d1xy) (st.exz + c.d1xz))
    else
      let t1 := nbrVox st.P c.s c.ay
      let t2 := cornerVox st.P (c.s.get 0) c.ax c.ay
      let Pa := st.P.set c.ax (st.P.get c.ax + c.s.get c.ax)
      let Pb := Pa.set c.ay (Pa.get c.ay + c.s.get c.ay)
      ([t1, t2], OccSt.mk Pb (st.exy + c.d1xy) (st.exz + c.dxz))
  else if st.exz > 0 then
    let t1 := nbrVox st.P c.s c.az
    let t2 := cornerVox st.P (c.s.get 0) c.ax c.az
    let Pa := st.P.set c.ax (st.P.get c.ax + c.s.get c.ax)
    let Pb := Pa.set c.az (Pa.get c.az + c.s.get c.az)
    ([t1, t2], OccSt.mk Pb (st.exy + c.dxy) (st.exz + c.d1xz))
  else
    let t1 := nbrVox st.P c.s c.ax
    let Pa := st.P.set c.ax (st.P.get c.ax + c.s.get c.ax)
    ([t1], OccSt.mk Pa (st.exy + c.dxy) (st.exz + c.dxz))

/-- The traversal loop `while s[x]*P[x] < s[x]*P2` of `Scene.occluded`,
with explicit fuel: `some true` when an opaque voxel is hit, `some false`
when the loop condition fails, `none` when the fuel runs out. -/
def occLoop (c : OccCtx K) (O : Finset (Pt3 K)) : ℕ → OccSt K → Option Bool
  | 0, _ => none
  | Nat.succ n, st =>
    if c.s.get c.ax * st.P.get c.ax < c.s.get c.ax * c.P2 then
      if ∃ v ∈ (occTests c st).1, v ∈ O then some true
      else occLoop c O n (occTests c st).2
    else some false

/-- The voxels the traversal loop tests, in order, when run to completion
ignoring opacity (the loop's control flow does not depend on the opaque
set, which it reads only to return early). -/
def occPath (c : OccCtx K) : ℕ → OccSt K → List (Pt3 K)
  | 0, _ => []
  | Nat.succ n, st =>
    if c.s.get c.ax * st.P.get c.ax < c.s.get c.ax * c.P2 then
      (occTests c st).1 ++ occPath c n (occTests c st).2
    else []

/-- The per-axis signed step of `Scene.occluded`:
`pstep * (p[i]-cam[i]) / d[i]`, or `pstep` on `ZeroDivisionError`. -/
def stepOf (pstep t dv : K) : K := if dv = 0 then pstep else pstep * t / dv

/-- The setup part of `Scene.occluded` (lines 94-125 of the source): deltas,
sub-voxel offsets, signed steps, driving-axis selection, start voxel,
driving-axis target and initial error terms. -/
def mkOccCtx (sc : Scene K) (p cam : Pt3 K) : OccCtx K × OccSt K :=
  let d := Pt3.mk |p.x - cam.x| |p.y - cam.y| |p.z - cam.z|
  let u := Pt3.mk (cam.x - snap sc.pstep cam.x) (cam.y - snap sc.pstep cam.y)
    (cam.z - snap sc.pstep cam.z)
  let sv := Pt3.mk (stepOf sc.pstep (p.x - cam.x) d.x)
    (stepOf sc.pstep (p.y - cam.y) d.y) (stepOf sc.pstep (p.z - cam.z) d.z)
  let axs : Fin 3 × Fin 3 × Fin 3 :=
    if d.x > d.y ∧ d.x > d.z then (0, 1, 2)
    else if d.y > d.x ∧ d.y > d.z then (1, 2, 0)
    else (2, 0, 1)
  let P0 := Pt3.mk (snap sc.pstep cam.x) (snap sc.pstep cam.y) (snap sc.pstep cam.z)
  let P2 := snap sc.pstep (p.get axs.1)
  let exy := (u.get axs.2.1 - sc.pstep) * d.get axs.1 + (sc.pstep - u.get axs.1) * d.get axs.2.1
  let exz := (u.get axs.2.2 - sc.pstep) * d.get axs.1 + (sc.pstep - u.get axs.1) * d.get axs.2.2
  let dxy := sc.pstep * d.get axs.2.1
  let dxz := sc.pstep * d.get axs.2.2
  (OccCtx.mk sc.pstep sv d axs.1 axs.2.1 axs.2.2 P2 dxy
    (dxy - sc.pstep * d.get axs.1) dxz (dxz - sc.pstep * d.get axs.1),
   OccSt.mk P0 exy exz)

/-- Fuel sufficient for the traversal loop: one more than the number of
driving-axis steps still to go, `⌈(s[x]*P2 - s[x]*P[x]) / pstep²⌉`. -/
def occFuel (c : OccCtx K) (st : OccSt K) : ℕ :=
  (⌈(c.s.get c.ax * c.P2 - c.s.get c.ax * st.P.get c.ax) / c.pstep ^ 2⌉).toNat + 1

/-- `Scene.occluded`, fuelled: `some b` when the traversal decides the
query with answer `b`; the start-voxel opacity test of line 115 precedes
the loop. -/
def Scene.occludedO (sc : Scene K) (p cam : Pt3 K) : Option Bool :=
  let cs := mkOccCtx sc p cam
  if cs.2.P ∈ sc.opq then some true
  else occLoop cs.1 sc.opq (occFuel cs.1 cs.2) cs.2

/-- `Scene.occluded` as a Boolean (for `pstep > 0` the fuel always
suffices, see the termination theorem, so the default is never taken). -/
def Scene.occluded (sc : Scene K) (p cam : Pt3 K) : Bool :=
  (sc.occludedO p cam).getD false

/-- The voxel path of the query: the start voxel followed by every voxel
the traversal tests.  It depends only on the geometry, not on the opaque
set. -/
def Scene.voxelPath (sc : Scene K) (p cam : Pt3 K) : List (Pt3 K) :=
  let cs := mkOccCtx sc p cam
  cs.2.P :: occPath cs.1 (occFuel cs.1 cs.2) cs.2

/-- Modelled from the spec: `fuzz.TrapezoidalFuzzyNumber`, given by its
kernel (full-membership) interval and support interval. -/
structure Trapezoid where
  kernel : ℝ × ℝ
  support : ℝ × ℝ

/-- Modelled from the spec: the membership function of a trapezoidal fuzzy
number is 0 outside the support, 1 inside the kernel, and linearly
interpolated on the two ramps between. -/
noncomputable def Trapezoid.mu (t : Trapezoid) (v : ℝ) : ℝ :=
  if v < t.support.1 ∨ t.support.2 < v then 0
  else if t.kernel.1 ≤ v ∧ v ≤ t.kernel.2 then 1
  else if v < t.kernel.1 then (v - t.support.1) / (t.kernel.1 - t.support.1)
  else (t.support.2 - v) / (t.support.2 - t.kernel.2)

/-- Modelled from the spec: a rotation, represented by its 3x3 matrix
(`geometry.rotation_matrix`); row-major fields. -/
structure Rot3 where
  rxx : ℝ
  rxy : ℝ
  rxz : ℝ
  ryx : ℝ
  ryy : ℝ
  ryz : ℝ
  rzx : ℝ
  rzy : ℝ
  rzz : ℝ

/-- Apply a rotation matrix to a point. -/
def Rot3.app (m : Rot3) (p : Pt3 ℝ) : Pt3 ℝ :=
  Pt3.mk (m.rxx * p.x + m.rxy * p.y + m.rxz * p.z)
    (m.ryx * p.x + m.ryy * p.y + m.ryz * p.z)
    (m.rzx * p.x + m.rzy * p.y + m.rzz * p.z)

/-- Matrix transpose, the inverse of an orthogonal rotation matrix. -/
def Rot3.transpose (m : Rot3) : Rot3 :=
  Rot3.mk m.rxx m.ryx m.rzx m.rxy m.ryy m.rzy m.rxz m.ryz m.rzz

/-- Modelled from the spec: `geometry.Pose`, a rigid transform given by a
translation `T` and a rotation `R`; forward mapping is
translate-then-rotate. -/
structure Pose where
  R : Rot3
  T : Pt3 ℝ

/-- Map a point through a pose: translate, then rotate. -/
def Pose.map (P : Pose) (q : Pt3 ℝ) : Pt3 ℝ :=
  P.R.app (Pt3.mk (q.x + P.T.x) (q.y + P.T.y) (q.z + P.T.z))

/-- Modelled from the spec: pose inversion (the unary minus `-pose` of the
source): inverse-rotate (transpose, for an orthogonal rotation) then
inverse-translate, packaged as a pose. -/
def Pose.neg (P : Pose) : Pose :=
  Pose.mk P.R.transpose (P.R.app (Pt3.mk (-P.T.x) (-P.T.y) (-P.T.z)))

/-- The unit direction vector of the spherical direction angles
(rho, eta). -/
noncomputable def dirVec (rho eta : ℝ) : Pt3 ℝ :=
  Pt3.mk (Real.sin rho * Real.cos eta) (Real.sin rho * Real.sin eta) (Real.cos rho)

/-- Two-argument arctangent, used to recover the azimuth angle of a
rotated direction vector. -/
noncomputable def atan2 (y x : ℝ) : ℝ :=
  if 0 < x then Real.arctan (y / x)
  else if x < 0 then
    (if 0 ≤ y then Real.arctan (y / x) + Real.pi else Real.arctan (y / x) - Real.pi)
  else if 0 < y then Real.pi / 2
  else if y < 0 then -(Real.pi / 2)
  else 0

/-- Direction angles (rho, eta) of a direction vector. -/
noncomputable def vecAngles (v : Pt3 ℝ) : ℝ × ℝ := (Real.arccos v.z, atan2 v.y v.x)

/-- Modelled from the spec: mapping a (possibly directional) point through
a pose; the position is mapped through the pose, the direction angles are
invariant under translation and rotate with the rotation. -/
noncomputable def Pose.mapD (P : Pose) (p : DPt ℝ) : DPt ℝ :=
  let q := P.map (DPt.pos p)
  DPt.mk q.x q.y q.z (p.dir.map (fun pr => vecAngles (P.R.app (dirVec pr.1 pr.2))))

/-- `Camera`: the single-camera model at evaluation time.  The constructor
of the source derives the four trapezoidal fuzzy sets `Cvh`, `Cvv`, `Cr`,
`Cf` from the intrinsic parameters once; `Camera.mu` only reads those sets,
the direction fuzzifier `zeta`, and the pose, so the model carries exactly
those fields (cameras are identified by `name`). -/
structure Camera where
  name : String
  Cvh : Trapezoid
  Cvv : Trapezoid
  Cr : Trapezoid
  Cf : Trapezoid
  zeta : ℝ
  pose : Pose

/-- `Camera.mu` (lines 299-344 of the source): map the point into the
camera frame by the inverse pose, evaluate visibility (with the
`ZeroDivisionError` at `campoint.z = 0` handled as `mu_v = 0.0`),
resolution, focus and direction (`ZeroDivisionError` at `r = 0` gives
`terma = 1.0`, at `campoint.z = 0` gives `termb = pi/2`; plain points get
`mu_d = 1.0`), and return the product of the four memberships. -/
noncomputable def Camera.mu (c : Camera) (p : DPt ℝ) : ℝ :=
  let cp := (Pose.neg c.pose).mapD p
  let mu_v := if cp.z = 0 then 0
    else min (c.Cvh.mu (cp.x / cp.z)) (c.Cvv.mu (cp.y / cp.z))
  let mu_r := c.Cr.mu cp.z
  let mu_f := c.Cf.mu cp.z
  let mu_d := match cp.dir with
    | none => 1
    | some pr =>
      let r := Real.sqrt (cp.x ^ 2 + cp.y ^ 2)
      let terma := if r = 0 then 1
        else (cp.y / r) * Real.sin pr.2 + (cp.x / r) * Real.cos pr.2
      let termb := if cp.z = 0 then Real.pi / 2 else Real.arctan (r / cp.z)
      min (max ((pr.1 - (Real.pi / 2 + terma * termb)) / c.zeta) 0) 1
  mu_v * mu_r * mu_f * mu_d

/-- The visibility membership of a camera-frame point: the minimum of the
horizontal sub-membership `Cvh(x/z)` and the vertical sub-membership
`Cvv(y/z)`, with zero visibility at `z = 0`. -/
noncomputable def Camera.visibility (c : Camera) (cp : DPt ℝ) : ℝ :=
  if cp.z = 0 then 0 else min (c.Cvh.mu (cp.x / cp.z)) (c.Cvv.mu (cp.y / cp.z))

/-- The resolution membership of a camera-frame point: `Cr(z)`. -/
noncomputable def Camera.resolution (c : Camera) (cp : DPt ℝ) : ℝ := c.Cr.mu cp.z

/-- The focus membership of a camera-frame point: `Cf(z)`. -/
noncomputable def Camera.focus (c : Camera) (cp : DPt ℝ) : ℝ := c.Cf.mu cp.z

/-- The direction membership of a camera-frame point (1 for a plain,
non-directional point). -/
noncomputable def Camera.dirMu (c : Camera) (cp : DPt ℝ) : ℝ :=
  match cp.dir with
  | none => 1
  | some pr =>
    let r := Real.sqrt (cp.x ^ 2 + cp.y ^ 2)
    let terma := if r = 0 then 1
      else (cp.y / r) * Real.sin pr.2 + (cp.x / r) * Real.cos pr.2
    let termb := if cp.z = 0 then Real.pi / 2 else Real.arctan (r / cp.z)
    min (max ((pr.1 - (Real.pi / 2 + terma * termb)) / c.zeta) 0) 1

/-- Modelled from the spec: the membership function of a `fuzz.FuzzySet`
stored as a list of (element, membership) pairs; elements not present have
membership 0 (the sets built by `_update_inscene` list each point at most
once). -/
noncomputable def fsMu : List (DPt ℝ × ℝ) → DPt ℝ → ℝ
  | [], _ => 0
  | pr :: t, q => if pr.1 = q then pr.2 else fsMu t q

/-- `MultiCamera._update_inscene`: iterate the full `generate_points()`
sequence and keep every directional point whose coverage `mu` is positive
and which is not occluded from the camera's principal point `pose.T`,
tagged with its membership degree. -/
noncomputable def computeInscene (sc : Scene ℝ) (c : Camera) : List (DPt ℝ × ℝ) :=
  (sc.generate_points Real.pi).filterMap (fun dp =>
    if 0 < c.mu dp ∧ sc.occluded (DPt.pos dp) c.pose.T = false then
      some (dp, c.mu dp)
    else none)

/-- The multi-camera network state: the shared scene, the name-keyed camera
collection (modelled as a list), the per-camera in-scene caches, and the
aggregate coverage model as a membership function (modelled from the spec:
a fuzzy set is an enumerable mapping from points to membership degrees). -/
structure MultiCamera where
  scene : Scene ℝ
  cameras : List Camera
  inscene : String → List (DPt ℝ × ℝ)
  model : DPt ℝ → ℝ

/-- `MultiCamera.add`: insert the camera into the name-keyed collection
(modelled from the spec: a name-keyed `IndexedSet`, so an existing camera
of the same name is replaced) and immediately recompute that camera's
in-scene cache. -/
noncomputable def MultiCamera.add (mc : MultiCamera) (c : Camera) : MultiCamera :=
  MultiCamera.mk mc.scene
    (c :: mc.cameras.filter (fun c' => c'.name != c.name))
    (fun k => if k = c.name then computeInscene mc.scene c else mc.inscene k)
    mc.model

/-- `MultiCameraSimple.update`: the aggregate coverage is the fuzzy union
(pointwise maximum, starting from the empty set's constant 0) of all
cameras' in-scene sets. -/
noncomputable def MultiCameraSimple.update (mc : MultiCamera) : MultiCamera :=
  MultiCamera.mk mc.scene mc.cameras mc.inscene
    (fun q => mc.cameras.foldr (fun cc acc => max (fsMu (mc.inscene cc.name) q) acc) 0)

/-- `itertools.combinations(self, 2)`: all unordered pairs of distinct
positions of the camera collection, in iteration order. -/
def pairsOf {β : Type} : List β → List (β × β)
  | [] => []
  | a :: t => t.map (fun b => (a, b)) ++ pairsOf t

/-- `MultiCamera3D.update`: the aggregate coverage starts from the base
fuzzy set holding every generated point at membership 0.0 (pointwise the
constant 0) and takes the fuzzy union over all unordered camera pairs of
the fuzzy intersection (pointwise minimum) of the two in-scene sets.
(The source dedups equal pairwise intersections through a `set`; that does
not change the pointwise maximum.) -/
noncomputable def MultiCamera3D.update (mc : MultiCamera) : MultiCamera :=
  MultiCamera.mk mc.scene mc.cameras mc.inscene
    (fun q => (pairsOf mc.cameras).foldr
      (fun pr acc =>
        max (min (fsMu (mc.inscene pr.1.name) q) (fsMu (mc.inscene pr.2.name) q)) acc) 0)

/-- `v` is an exact (integer) multiple of the grid step. -/
def stepAligned (pstep v : K) : Prop := ∃ k : ℤ, v = k * pstep

/-- Every coordinate of `p` is an exact multiple of the grid step. -/
def gridAligned (pstep : K) (p : Pt3 K) : Prop :=
  stepAligned pstep p.x ∧ stepAligned pstep p.y ∧ stepAligned pstep p.z

/-- The exact rational value of the IEEE-754 double `math.pi`
(`884279719003555 * 2^-48`), the constant the source compares `rho`
against. -/
def mathPi : ℚ := 884279719003555 / 281474976710656

/-- Concrete scene for witnesses: a 3x3x3 grid of step 1 with no opaque
voxels. -/
def sW1 : Scene ℚ := Scene.mk (0, 3) (0, 3) (0, 3) 1 1 ∅

/-- Concrete scene for witnesses: as `sW1` but with the origin voxel
opaque. -/
def sW9 : Scene ℚ := Scene.mk (0, 3) (0, 3) (0, 3) 1 1 {Pt3.mk 0 0 0}

/-- Concrete scene for the `generate_points` theorems: a single-cell grid. -/
def sW5 : Scene ℚ := Scene.mk (0, 1) (0, 1) (0, 1) 1 1 ∅

/-- A degenerate trapezoid for witness cameras. -/
def trapW : Trapezoid := Trapezoid.mk (0, 0) (0, 0)

/-- The identity rotation matrix. -/
def rotI : Rot3 := Rot3.mk 1 0 0 0 1 0 0 0 1

/-- The identity pose. -/
def poseI : Pose := Pose.mk rotI (Pt3.mk 0 0 0)

/-- A witness camera with the given name, degenerate fuzzy sets and the
identity pose. -/
def camW (nm : String) : Camera := Camera.mk nm trapW trapW trapW trapW 1 poseI

/-- A concrete plain (non-directional) point for witnesses. -/
def qW : DPt ℝ := DPt.mk 0 0 0 none

/-- A concrete point on the camera-frame plane `z = 0` for the
division-by-zero witness. -/
def pW8 : DPt ℝ := DPt.mk 1 2 0 none

/-- A concrete two-camera network state in which camera "A" covers `qW`
with membership 1 and camera "B" covers nothing. -/
noncomputable def mcW : MultiCamera :=
  MultiCamera.mk (Scene.mk (0, 1) (0, 1) (0, 1) 1 1 ∅) [camW "A", camW "B"]
    (fun k => if k = "A" then [(qW, 1)] else []) (fun _ => 0)

lemma fmod_eq_zero_iff (m v : K) (hm : m ≠ 0) :
    fmod v m = 0 ↔ stepAligned m v := by
  unfold fmod stepAligned
  constructor
  · intro h
    exact ⟨⌊v / m⌋, by linarith⟩
  · rintro ⟨k, rfl⟩
    rw [mul_div_cancel_right₀ _ hm, Int.floor_intCast, sub_self]

/-- C7: `make_opaque` raises exactly on points off the `pstep` lattice,
adds exactly-aligned points to the opaque set, and hence preserves the
invariant that every opaque voxel is grid-aligned. -/
theorem make_opaque_spec (s : Scene K) (p : Pt3 K) (hp : 0 < s.pstep) :
    ( Scene.make_opaque s p = none ↔ ¬ gridAligned s.pstep p) ∧
    (gridAligned s.pstep p →
      Scene.make_opaque s p =
        some (Scene.mk s.xr s.yr s.zr s.pstep s.dstep (insert p s.opq))) ∧
    (∀ s', Scene.make_opaque s p = some s' → (∀ q ∈ s.opq, gridAligned s.pstep q) →
      ∀ q ∈ s'.opq, gridAligned s.pstep q) := by
  have hm : s.pstep ≠ 0 := ne_of_gt hp
  have hcond : (fmod p.x s.pstep ≠ 0 ∨ fmod p.y s.pstep ≠ 0 ∨ fmod p.z s.pstep ≠ 0) ↔
      ¬ gridAligned s.pstep p := by
    rw [gridAligned, ← fmod_eq_zero_iff _ _ hm, ← fmod_eq_zero_iff _ _ hm,
      ← fmod_eq_zero_iff _ _ hm]
    tauto
  refine ⟨?_, ?_, ?_⟩
  · unfold Scene.make_opaque
    split_ifs with h
    · simpa using hcond.mp h
    · have hax : gridAligned s.pstep p := not_not.mp ((not_congr hcond).mp h)
      simp [hax]
  · intro hal
    unfold Scene.make_opaque
    rw [if_neg (by rw [hcond]; exact not_not_intro hal)]
  · intro s' hs' hinv q hq
    unfold Scene.make_opaque at hs'
    split_ifs at hs' with h
    cases hs'
    rcases Finset.mem_insert.mp hq with h1 | h1
    · subst h1
      exact not_not.mp (by rw [← hcond]; exact h)
    · exact hinv q h1

/-- Witness for C7 at a concrete scene of step 1 and the off-lattice point
`(1/2, 0, 0)`. -/
theorem make_opaque_spec_witness :
    (0 : ℚ) < sW1.pstep ∧
    (( Scene.make_opaque sW1 (Pt3.mk (1/2) 0 0) = none ↔
        ¬ gridAligned sW1.pstep (Pt3.mk (1/2) 0 0)) ∧
      (gridAligned sW1.pstep (Pt3.mk (1/2) 0 0) →
        Scene.make_opaque sW1 (Pt3.mk (1/2) 0 0) =
          some (Scene.mk sW1.xr sW1.yr sW1.zr sW1.pstep sW1.dstep
            (insert (Pt3.mk (1/2) 0 0) sW1.opq))) ∧
      (∀ s', Scene.make_opaque sW1 (Pt3.mk (1/2) 0 0) = some s' →
        (∀ q ∈ sW1.opq, gridAligned sW1.pstep q) →
        ∀ q ∈ s'.opq, gridAligned sW1.pstep q)) :=
  ⟨by with_unfolding_all decide,
    make_opaque_spec sW1 (Pt3.mk (1/2) 0 0) (by with_unfolding_all decide)⟩

/-- C9: if the grid voxel containing the camera's principal point is
opaque, `Scene.occluded` returns true immediately (line 115 of the
source), regardless of what lies between the endpoints. -/
theorem occluded_origin_opaque (s : Scene K) (p cam : Pt3 K)
    (h : Pt3.mk (snap s.pstep cam.x) (snap s.pstep cam.y) (snap s.pstep cam.z) ∈ s.opq) :
    s.occluded p cam = true := by
  unfold Scene.occluded Scene.occludedO
  simp only [mkOccCtx]
  rw [if_pos h]
  rfl

/-- Witness for C9 at a concrete scene whose origin voxel is opaque. -/
theorem occluded_origin_opaque_witness :
    (Pt3.mk (snap sW9.pstep (Pt3.mk (0:ℚ) 0 0).x) (snap sW9.pstep (Pt3.mk (0:ℚ) 0 0).y)
        (snap sW9.pstep (Pt3.mk (0:ℚ) 0 0).z) ∈ sW9.opq) ∧
    sW9.occluded (Pt3.mk 2 2 2) (Pt3.mk 0 0 0) = true := by
  have h : Pt3.mk (snap sW9.pstep (Pt3.mk (0:ℚ) 0 0).x) (snap sW9.pstep (Pt3.mk (0:ℚ) 0 0).y)
      (snap sW9.pstep (Pt3.mk (0:ℚ) 0 0).z) ∈ sW9.opq := by with_unfolding_all decide
  exact ⟨h, occluded_origin_opaque sW9 (Pt3.mk 2 2 2) (Pt3.mk 0 0 0) h⟩

lemma Trapezoid.mu_mem (t : Trapezoid) (v : ℝ) : 0 ≤ t.mu v ∧ t.mu v ≤ 1 := by
  unfold Trapezoid.mu
  split_ifs with h1 h2 h3
  · exact ⟨le_refl 0, zero_le_one⟩
  · exact ⟨zero_le_one, le_refl 1⟩
  · push_neg at h1
    have hden : 0 < t.kernel.1 - t.support.1 := by linarith [h1.1]
    constructor
    · apply div_nonneg <;> linarith [h1.1]
    · rw [div_le_one hden]
      linarith
  · push_neg at h1 h2 h3
    have hk1 : t.kernel.2 < v := h2 h3
    have hden : 0 < t.support.2 - t.kernel.2 := by linarith [h1.2]
    constructor
    · apply div_nonneg <;> linarith [h1.2]
    · rw [div_le_one hden]
      linarith

lemma Camera.visibility_mem (c : Camera) (cp : DPt ℝ) :
    0 ≤ c.visibility cp ∧ c.visibility cp ≤ 1 := by
  unfold Camera.visibility
  split_ifs with h
  · exact ⟨le_refl 0, zero_le_one⟩
  · constructor
    · exact le_min (c.Cvh.mu_mem _).1 (c.Cvv.mu_mem _).1
    · exact le_trans (min_le_left _ _) (c.Cvh.mu_mem _).2

lemma Camera.dirMu_mem (c : Camera) (cp : DPt ℝ) :
    0 ≤ c.dirMu cp ∧ c.dirMu cp ≤ 1 := by
  unfold Camera.dirMu
  cases cp.dir with
  | none => exact ⟨zero_le_one, le_refl 1⟩
  | some pr =>
    constructor
    · exact le_min (le_max_right _ _) zero_le_one
    · exact min_le_right _ _

/-- C2: `Camera.mu` maps the point into the camera frame by the inverse
pose and returns the product of the four membership degrees (visibility as
the minimum of the `Cvh(x/z)` and `Cvv(y/z)` sub-memberships, resolution
`Cr(z)`, focus `Cf(z)`, and direction), and this product lies in `[0,1]`. -/
theorem camera_mu_product_range (c : Camera) (p : DPt ℝ) :
    c.mu p =
      c.visibility ((Pose.neg c.pose).mapD p) * c.resolution ((Pose.neg c.pose).mapD p) *
        c.focus ((Pose.neg c.pose).mapD p) * c.dirMu ((Pose.neg c.pose).mapD p) ∧
    0 ≤ c.mu p ∧ c.mu p ≤ 1 := by
  have hdecomp : c.mu p =
      c.visibility ((Pose.neg c.pose).mapD p) * c.resolution ((Pose.neg c.pose).mapD p) *
        c.focus ((Pose.neg c.pose).mapD p) * c.dirMu ((Pose.neg c.pose).mapD p) := rfl
  refine ⟨hdecomp, ?_, ?_⟩
  · rw [hdecomp]
    exact mul_nonneg (mul_nonneg (mul_nonneg (c.visibility_mem _).1
      (c.Cr.mu_mem _).1) (c.Cf.mu_mem _).1) (c.dirMu_mem _).1
  · rw [hdecomp]
    exact mul_le_one₀ (mul_le_one₀ (mul_le_one₀ (c.visibility_mem _).2
        (c.Cr.mu_mem _).1 (c.Cr.mu_mem _).2)
        (c.Cf.mu_mem _).1 (c.Cf.mu_mem _).2)
      (c.dirMu_mem _).1 (c.dirMu_mem _).2

/-- C8: when the point maps to the camera-frame plane `z = 0` (including
the focal point itself), the `ZeroDivisionError` branch makes the
visibility membership 0 and `Camera.mu` returns 0 normally. -/
theorem camera_mu_center_zero (c : Camera) (p : DPt ℝ)
    (h : ((Pose.neg c.pose).mapD p).z = 0) : c.mu p = 0 := by
  simp [Camera.mu, h]

/-- Witness for C8: identity pose and the point `(1, 2, 0)`, which lies on
the camera-frame plane `z = 0`. -/
theorem camera_mu_center_zero_witness :
    ((Pose.neg (camW "w").pose).mapD pW8).z = 0 ∧ (camW "w").mu pW8 = 0 := by
  have hz : ((Pose.neg (camW "w").pose).mapD pW8).z = 0 := by
    norm_num [camW, poseI, rotI, Pose.neg, Pose.mapD, Pose.map, Rot3.app,
      Rot3.transpose, DPt.pos, pW8]
  exact ⟨hz, camera_mu_center_zero (camW "w") pW8 hz⟩

lemma foldr_max_nonneg (l : List ℝ) : 0 ≤ l.foldr max 0 := by
  induction l with
  | nil => exact le_refl 0
  | cons a t ih => exact le_trans ih (le_max_right a _)

lemma le_foldr_max (l : List ℝ) (a : ℝ) (ha : a ∈ l) : a ≤ l.foldr max 0 := by
  induction l with
  | nil => cases ha
  | cons b t ih =>
    rcases List.mem_cons.mp ha with rfl | h
    · exact le_max_left a _
    · exact le_trans (ih h) (le_max_right b _)

lemma foldr_max_le (l : List ℝ) (a : ℝ) (h0 : 0 ≤ a) (h : ∀ b ∈ l, b ≤ a) :
    l.foldr max 0 ≤ a := by
  induction l with
  | nil => exact h0
  | cons b t ih =>
    exact max_le (h b (List.mem_cons_self b t))
      (ih (fun v hv => h v (List.mem_cons_of_mem b hv)))

lemma foldr_max_attained (l : List ℝ) :
    l.foldr max 0 = 0 ∨ ∃ a ∈ l, l.foldr max 0 = a := by
  induction l with
  | nil => exact Or.inl rfl
  | cons b t ih =>
    rcases le_or_lt b (t.foldr max 0) with hb | hb
    · have : (b :: t).foldr max 0 = t.foldr max 0 := max_eq_right hb
      rcases ih with h0 | ⟨a, ha, heq⟩
      · exact Or.inl (this.trans h0)
      · exact Or.inr ⟨a, List.mem_cons_of_mem b ha, this.trans heq⟩
    · exact Or.inr ⟨b, List.mem_cons_self b t, max_eq_left (le_of_lt hb)⟩

/-- C4: under the simple policy, the aggregate coverage is the pointwise
maximum of the cameras' in-scene memberships (it bounds each from above
and is attained or zero), and a point covered by one camera alone gets
exactly that camera's membership. -/
theorem simple_update_spec (mc : MultiCamera) (q : DPt ℝ) :
    (∀ cc ∈ mc.cameras,
      fsMu (mc.inscene cc.name) q ≤ (MultiCameraSimple.update mc).model q) ∧
    ((MultiCameraSimple.update mc).model q = 0 ∨
      ∃ cc ∈ mc.cameras,
        (MultiCameraSimple.update mc).model q = fsMu (mc.inscene cc.name) q) ∧
    (∀ cc ∈ mc.cameras, 0 ≤ fsMu (mc.inscene cc.name) q →
      (∀ c' ∈ mc.cameras, c'.name ≠ cc.name → fsMu (mc.inscene c'.name) q = 0) →
      (MultiCameraSimple.update mc).model q = fsMu (mc.inscene cc.name) q) := by
  have hmodel : (MultiCameraSimple.update mc).model q =
      (mc.cameras.map (fun cc => fsMu (mc.inscene cc.name) q)).foldr max 0 := by
    rw [List.foldr_map]
    rfl
  refine ⟨?_, ?_, ?_⟩
  · intro cc hcc
    rw [hmodel]
    exact le_foldr_max _ _ (List.mem_map.mpr ⟨cc, hcc, rfl⟩)
  · rw [hmodel]
    rcases foldr_max_attained (mc.cameras.map (fun cc => fsMu (mc.inscene cc.name) q))
      with h0 | ⟨a, ha, heq⟩
    · exact Or.inl h0
    · rcases List.mem_map.mp ha with ⟨cc, hcc, rfl⟩
      exact Or.inr ⟨cc, hcc, heq⟩
  · intro cc hcc h0 hothers
    rw [hmodel]
    refine le_antisymm (foldr_max_le _ _ h0 ?_)
      (le_foldr_max _ _ (List.mem_map.mpr ⟨cc, hcc, rfl⟩))
    intro b hb
    rcases List.mem_map.mp hb with ⟨c', hc', rfl⟩
    by_cases hname : c'.name = cc.name
    · rw [hname]
    · rw [hothers c' hc' hname]
      exact h0

lemma pairsOf_mem {β : Type} (l : List β) (pr : β × β) (h : pr ∈ pairsOf l) :
    pr.1 ∈ l ∧ pr.2 ∈ l := by
  induction l with
  | nil => cases h
  | cons a t ih =>
    rcases List.mem_append.mp h with h1 | h1
    · rcases List.mem_map.mp h1 with ⟨b, hb, rfl⟩
      exact ⟨List.mem_cons_self a t, List.mem_cons_of_mem a hb⟩
    · rcases ih h1 with ⟨h2, h3⟩
      exact ⟨List.mem_cons_of_mem a h2, List.mem_cons_of_mem a h3⟩

lemma pairsOf_names_ne (l : List Camera) (hnd : (l.map Camera.name).Nodup)
    (pr : Camera × Camera) (h : pr ∈ pairsOf l) : pr.1.name ≠ pr.2.name := by
  induction l with
  | nil => cases h
  | cons a t ih =>
    rw [List.map_cons, List.nodup_cons] at hnd
    rcases List.mem_append.mp h with h1 | h1
    · rcases List.mem_map.mp h1 with ⟨b, hb, rfl⟩
      intro hcontra
      exact hnd.1 (by rw [hcontra]; exact List.mem_map.mpr ⟨b, hb, rfl⟩)
    · exact ih hnd.2 h1

/-- C3: under the pairwise (stereo) policy, the aggregate coverage is the
pointwise maximum over all unordered camera pairs of the pointwise minimum
of the two in-scene memberships (it bounds each pairwise minimum from
above and is attained or zero); in particular, a point with membership
only under a single camera `A` receives aggregate membership 0. -/
theorem stereo_update_spec (mc : MultiCamera) (q : DPt ℝ) :
    (∀ pr ∈ pairsOf mc.cameras,
      min (fsMu (mc.inscene pr.1.name) q) (fsMu (mc.inscene pr.2.name) q) ≤
        (MultiCamera3D.update mc).model q) ∧
    ((MultiCamera3D.update mc).model q = 0 ∨
      ∃ pr ∈ pairsOf mc.cameras, (MultiCamera3D.update mc).model q =
        min (fsMu (mc.inscene pr.1.name) q) (fsMu (mc.inscene pr.2.name) q)) ∧
    (∀ A ∈ mc.cameras, (mc.cameras.map Camera.name).Nodup →
      (∀ c' ∈ mc.cameras, c'.name ≠ A.name → fsMu (mc.inscene c'.name) q = 0) →
      (MultiCamera3D.update mc).model q = 0) := by
  have hmodel : (MultiCamera3D.update mc).model q =
      ((pairsOf mc.cameras).map (fun pr =>
        min (fsMu (mc.inscene pr.1.name) q) (fsMu (mc.inscene pr.2.name) q))).foldr max 0 := by
    rw [List.foldr_map]
    rfl
  refine ⟨?_, ?_, ?_⟩
  · intro pr hpr
    rw [hmodel]
    exact le_foldr_max _ _ (List.mem_map.mpr ⟨pr, hpr, rfl⟩)
  · rw [hmodel]
    rcases foldr_max_attained ((pairsOf mc.cameras).map (fun pr =>
        min (fsMu (mc.inscene pr.1.name) q) (fsMu (mc.inscene pr.2.name) q)))
      with h0 | ⟨a, ha, heq⟩
    · exact Or.inl h0
    · rcases List.mem_map.mp ha with ⟨pr, hpr, rfl⟩
      exact Or.inr ⟨pr, hpr, heq⟩
  · intro A hA hnd hothers
    rw [hmodel]
    refine le_antisymm (foldr_max_le _ _ (le_refl 0) ?_) (foldr_max_nonneg _)
    intro b hb
    rcases List.mem_map.mp hb with ⟨pr, hpr, rfl⟩
    have hne := pairsOf_names_ne mc.cameras hnd pr hpr
    rcases pairsOf_mem mc.cameras pr hpr with ⟨hm1, hm2⟩
    by_cases h1 : pr.1.name = A.name
    · have h2 : pr.2.name ≠ A.name := by
        intro h2
        exact hne (h1.trans h2.symm)
      rw [min_le_iff]
      exact Or.inr (le_of_eq (hothers pr.2 hm2 h2))
    · rw [min_le_iff]
      exact Or.inl (le_of_eq (hothers pr.1 hm1 h1))

/-- Witness for C4 at a concrete two-camera network: camera "A" covers
`qW` with membership 1, camera "B" covers nothing, and the simple-policy
aggregate equals camera "A"'s membership. -/
theorem simple_update_spec_witness :
    (camW "A" ∈ mcW.cameras) ∧ (0 ≤ fsMu (mcW.inscene (camW "A").name) qW) ∧
    (∀ c' ∈ mcW.cameras, c'.name ≠ (camW "A").name →
      fsMu (mcW.inscene c'.name) qW = 0) ∧
    (MultiCameraSimple.update mcW).model qW = fsMu (mcW.inscene (camW "A").name) qW := by
  have h1 : camW "A" ∈ mcW.cameras := by simp [mcW]
  have h2 : 0 ≤ fsMu (mcW.inscene (camW "A").name) qW := by
    norm_num [mcW, camW, fsMu]
  have h3 : ∀ c' ∈ mcW.cameras, c'.name ≠ (camW "A").name →
      fsMu (mcW.inscene c'.name) qW = 0 := by
    intro c' hc' hne
    have hmem : c' = camW "A" ∨ c' = camW "B" := by simpa [mcW] using hc'
    rcases hmem with rfl | rfl
    · exact absurd rfl hne
    · norm_num [mcW, camW, fsMu]
  exact ⟨h1, h2, h3, (simple_update_spec mcW qW).2.2 (camW "A") h1 h2 h3⟩

/-- Witness for C3 at the same concrete network: `qW` is covered only by
camera "A", so the stereo-policy aggregate at `qW` is 0. -/
theorem stereo_update_spec_witness :
    (camW "A" ∈ mcW.cameras) ∧ ((mcW.cameras.map Camera.name).Nodup) ∧
    (∀ c' ∈ mcW.cameras, c'.name ≠ (camW "A").name →
      fsMu (mcW.inscene c'.name) qW = 0) ∧
    (MultiCamera3D.update mcW).model qW = 0 := by
  have h1 : camW "A" ∈ mcW.cameras := by simp [mcW]
  have h2 : (mcW.cameras.map Camera.name).Nodup := by
    simp [mcW, camW]
  have h3 : ∀ c' ∈ mcW.cameras, c'.name ≠ (camW "A").name →
      fsMu (mcW.inscene c'.name) qW = 0 := by
    intro c' hc' hne
    have hmem : c' = camW "A" ∨ c' = camW "B" := by simpa [mcW] using hc'
    rcases hmem with rfl | rfl
    · exact absurd rfl hne
    · norm_num [mcW, camW, fsMu]
  exact ⟨h1, h2, h3, (stereo_update_spec mcW qW).2.2 (camW "A") h1 h2 h3⟩

/-- C6: adding a camera to a network immediately recomputes that camera's
in-scene cache from the full `generate_points` sequence, and the cache
holds exactly the generated points with positive membership that are not
occluded from the camera's principal point, tagged with their membership
degree. -/
theorem add_inscene_spec (mc : MultiCamera) (c : Camera) (dp : DPt ℝ) (m : ℝ) :
    ((mc.add c).inscene c.name = computeInscene mc.scene c) ∧
    ((dp, m) ∈ (mc.add c).inscene c.name ↔
      dp ∈ mc.scene.generate_points Real.pi ∧ m = c.mu dp ∧ 0 < m ∧
        mc.scene.occluded (DPt.pos dp) c.pose.T = false) := by
  have hcache : (mc.add c).inscene c.name = computeInscene mc.scene c := by
    simp [MultiCamera.add]
  refine ⟨hcache, ?_⟩
  rw [hcache]
  unfold computeInscene
  rw [List.mem_filterMap]
  constructor
  · rintro ⟨a, ha, hf⟩
    split_ifs at hf with hc
    rw [Option.some_inj] at hf
    cases hf
    exact ⟨ha, rfl, hc.1, hc.2⟩
  · rintro ⟨hgen, rfl, hpos, hocc⟩
    refine ⟨dp, hgen, ?_⟩
    rw [if_pos ⟨hpos, hocc⟩]

lemma Pt3.get_set_self (p : Pt3 K) (i : Fin 3) (v : K) : (p.set i v).get i = v := by
  fin_cases i <;> rfl

lemma Pt3.get_set_ne (p : Pt3 K) (i j : Fin 3) (v : K) (h : j ≠ i) :
    (p.set i v).get j = p.get j := by
  fin_cases i <;> fin_cases j <;> first | rfl | exact absurd rfl h

lemma addS_get (P s : Pt3 K) (i : Fin 3) :
    (Pt3.mk (P.x + s.get 0) (P.y + s.get 1) (P.z + s.get 2)).get i = P.get i + s.get i := by
  fin_cases i <;> rfl

lemma occTests_P_ax (c : OccCtx K) (st : OccSt K) (hyx : c.ay ≠ c.ax) (hzx : c.az ≠ c.ax) :
    ((occTests c st).2).P.get c.ax = st.P.get c.ax + c.s.get c.ax := by
  unfold occTests
  split_ifs with h1 h2 h3 <;>
    simp only [addS_get, Pt3.get_set_self, Pt3.get_set_ne _ _ _ _ (Ne.symm hyx),
      Pt3.get_set_ne _ _ _ _ (Ne.symm hzx), Pt3.get_set_ne _ _ _ _ hyx,
      Pt3.get_set_ne _ _ _ _ hzx]

lemma occLoop_isSome (c : OccCtx K) (O : Finset (Pt3 K)) (hps : 0 < c.pstep)
    (hs2 : c.s.get c.ax ^ 2 = c.pstep ^ 2) (hyx : c.ay ≠ c.ax) (hzx : c.az ≠ c.ax) :
    ∀ (n : ℕ) (st : OccSt K),
      (⌈(c.s.get c.ax * c.P2 - c.s.get c.ax * st.P.get c.ax) / c.pstep ^ 2⌉).toNat < n →
      (occLoop c O n st).isSome := by
  intro n
  induction n with
  | zero => exact fun st h => absurd h (Nat.not_lt_zero _)
  | succ n ih =>
    intro st h
    rw [occLoop]
    split_ifs with hcond hex
    · rfl
    · apply ih
      have hstep : (occTests c st).2.P.get c.ax = st.P.get c.ax + c.s.get c.ax :=
        occTests_P_ax c st hyx hzx
      have hp2 : (0:K) < c.pstep ^ 2 := by positivity
      have hmul : c.s.get c.ax * (st.P.get c.ax + c.s.get c.ax) =
          c.s.get c.ax * st.P.get c.ax + c.pstep ^ 2 := by
        rw [mul_add, ← hs2]
        ring
      have hkey : (c.s.get c.ax * c.P2 - c.s.get c.ax * (occTests c st).2.P.get c.ax) /
          c.pstep ^ 2 =
          (c.s.get c.ax * c.P2 - c.s.get c.ax * st.P.get c.ax) / c.pstep ^ 2 - 1 := by
        rw [hstep, hmul, ← sub_sub, sub_div, div_self (ne_of_gt hp2)]
      have hpos : 0 < (c.s.get c.ax * c.P2 - c.s.get c.ax * st.P.get c.ax) / c.pstep ^ 2 :=
        div_pos (by linarith [hcond]) hp2
      have hceil : 1 ≤ ⌈(c.s.get c.ax * c.P2 - c.s.get c.ax * st.P.get c.ax) / c.pstep ^ 2⌉ :=
        Int.ceil_pos.mpr hpos
      rw [hkey, Int.ceil_sub_one]
      omega
    · rfl

lemma stepOf_cases (ps t : K) : stepOf ps t |t| = ps ∨ stepOf ps t |t| = -ps := by
  unfold stepOf
  split_ifs with h
  · exact Or.inl rfl
  · have ht : t ≠ 0 := fun h0 => h (by rw [h0, abs_zero])
    rcases lt_or_gt_of_ne ht with hlt | hgt
    · right
      rw [abs_of_neg hlt, div_neg, mul_div_assoc, div_self ht, mul_one]
    · left
      rw [abs_of_pos hgt, mul_div_assoc, div_self ht, mul_one]

lemma mkOccCtx_s_eq (sc : Scene K) (p cam : Pt3 K) :
    ((mkOccCtx sc p cam).1).s =
      Pt3.mk (stepOf sc.pstep (p.x - cam.x) |p.x - cam.x|)
        (stepOf sc.pstep (p.y - cam.y) |p.y - cam.y|)
        (stepOf sc.pstep (p.z - cam.z) |p.z - cam.z|) := rfl

lemma mkOccCtx_s_cases (sc : Scene K) (p cam : Pt3 K) (i : Fin 3) :
    ((mkOccCtx sc p cam).1).s.get i = sc.pstep ∨
      ((mkOccCtx sc p cam).1).s.get i = -sc.pstep := by
  rw [mkOccCtx_s_eq]
  fin_cases i
  · exact stepOf_cases sc.pstep (p.x - cam.x)
  · exact stepOf_cases sc.pstep (p.y - cam.y)
  · exact stepOf_cases sc.pstep (p.z - cam.z)

lemma mkOccCtx_axes (sc : Scene K) (p cam : Pt3 K) :
    ((mkOccCtx sc p cam).1.ax = 0 ∧ (mkOccCtx sc p cam).1.ay = 1 ∧
        (mkOccCtx sc p cam).1.az = 2) ∨
      ((mkOccCtx sc p cam).1.ax = 1 ∧ (mkOccCtx sc p cam).1.ay = 2 ∧
        (mkOccCtx sc p cam).1.az = 0) ∨
      ((mkOccCtx sc p cam).1.ax = 2 ∧ (mkOccCtx sc p cam).1.ay = 0 ∧
        (mkOccCtx sc p cam).1.az = 1) := by
  simp only [mkOccCtx]
  split_ifs <;> simp

lemma mkOccCtx_axes_ne (sc : Scene K) (p cam : Pt3 K) :
    (mkOccCtx sc p cam).1.ay ≠ (mkOccCtx sc p cam).1.ax ∧
      (mkOccCtx sc p cam).1.az ≠ (mkOccCtx sc p cam).1.ax := by
  rcases mkOccCtx_axes sc p cam with ⟨h1, h2, h3⟩ | ⟨h1, h2, h3⟩ | ⟨h1, h2, h3⟩ <;>
    rw [h1, h2, h3] <;> exact ⟨by decide, by decide⟩

lemma mkOccCtx_sq (sc : Scene K) (p cam : Pt3 K) :
    ((mkOccCtx sc p cam).1).s.get ((mkOccCtx sc p cam).1.ax) ^ 2 =
      ((mkOccCtx sc p cam).1).pstep ^ 2 := by
  have hpe : ((mkOccCtx sc p cam).1).pstep = sc.pstep := rfl
  rcases mkOccCtx_s_cases sc p cam ((mkOccCtx sc p cam).1.ax) with h1 | h1 <;>
    rw [h1, hpe] <;> ring

/-- C10: for a positive grid step the traversal loop of `Scene.occluded`
terminates on every input: the driving-axis value `s[x]*P[x]` grows by
`pstep^2` each iteration, so the allotted fuel (the ceiling of the
remaining distance divided by `pstep^2`) suffices and the fuelled
traversal returns a result. -/
theorem occluded_terminates (sc : Scene K) (p cam : Pt3 K) (hps : 0 < sc.pstep) :
    (sc.occludedO p cam).isSome := by
  unfold Scene.occludedO
  dsimp only
  split_ifs with h
  · rfl
  · apply occLoop_isSome _ _ hps (mkOccCtx_sq sc p cam) (mkOccCtx_axes_ne sc p cam).1
      (mkOccCtx_axes_ne sc p cam).2
    unfold occFuel
    exact Nat.lt_succ_self _

lemma occLoop_eq_some (c : OccCtx K) (O : Finset (Pt3 K)) :
    ∀ (n : ℕ) (st : OccSt K) (b : Bool), occLoop c O n st = some b →
      (b = true ↔ ∃ v ∈ occPath c n st, v ∈ O) := by
  intro n
  induction n with
  | zero => exact fun st b h => Option.noConfusion h
  | succ n ih =>
    intro st b h
    rw [occLoop] at h
    rw [occPath]
    split_ifs at h with hcond hex
    · rw [Option.some_inj] at h
      subst h
      rw [if_pos hcond]
      simp only [true_iff]
      rcases hex with ⟨v, hv, hvO⟩
      exact ⟨v, List.mem_append_left _ hv, hvO⟩
    · rw [ih (occTests c st).2 b h, if_pos hcond]
      constructor
      · rintro ⟨v, hv, hvO⟩
        exact ⟨v, List.mem_append_right _ hv, hvO⟩
      · rintro ⟨v, hv, hvO⟩
        rcases List.mem_append.mp hv with h1 | h1
        · exact absurd ⟨v, h1, hvO⟩ hex
        · exact ⟨v, h1, hvO⟩
    · rw [Option.some_inj] at h
      subst h
      rw [if_neg hcond]
      simp

lemma occludedO_char (sc : Scene K) (p cam : Pt3 K) (b : Bool)
    (h : sc.occludedO p cam = some b) :
    (b = true ↔ ∃ v ∈ sc.voxelPath p cam, v ∈ sc.opq) := by
  unfold Scene.occludedO at h
  unfold Scene.voxelPath
  dsimp only at h ⊢
  split_ifs at h with hstart
  · rw [Option.some_inj] at h
    subst h
    exact ⟨fun _ => ⟨_, List.mem_cons_self _ _, hstart⟩, fun _ => rfl⟩
  · rw [occLoop_eq_some (mkOccCtx sc p cam).1 sc.opq _ (mkOccCtx sc p cam).2 b h]
    constructor
    · rintro ⟨v, hv, hvO⟩
      exact ⟨v, List.mem_cons_of_mem _ hv, hvO⟩
    · rintro ⟨v, hv, hvO⟩
      rcases List.mem_cons.mp hv with rfl | h1
      · exact absurd hvO hstart
      · exact ⟨v, h1, hvO⟩

lemma stepAligned_add {ps a b : K} (ha : stepAligned ps a) (hb : stepAligned ps b) :
    stepAligned ps (a + b) := by
  rcases ha with ⟨ka, rfl⟩
  rcases hb with ⟨kb, rfl⟩
  exact ⟨ka + kb, by push_cast; ring⟩

lemma stepAligned_pyAndOr {ps v : K} (c : Prop) [Decidable c] (hv : stepAligned ps v) :
    stepAligned ps (pyAndOr c v) := by
  unfold pyAndOr
  split_ifs
  · exact hv
  · exact ⟨0, by simp⟩

lemma snap_aligned (ps v : K) : stepAligned ps (snap ps v) := ⟨itrunc (v / ps), rfl⟩

lemma mkOccCtx_s_aligned (sc : Scene K) (p cam : Pt3 K) (i : Fin 3) :
    stepAligned sc.pstep (((mkOccCtx sc p cam).1).s.get i) := by
  rcases mkOccCtx_s_cases sc p cam i with h1 | h1 <;> rw [h1]
  · exact ⟨1, by push_cast; ring⟩
  · exact ⟨-1, by push_cast; ring⟩

lemma nbrVox_get (P s : Pt3 K) (a i : Fin 3) :
    (nbrVox P s a).get i = P.get i + pyAndOr (a = i) (s.get i) := by
  fin_cases a <;> fin_cases i <;> simp [nbrVox, pyAndOr, Pt3.get, Fin.ext_iff]

lemma cornerVox_get (P : Pt3 K) (s0 : K) (a b i : Fin 3) :
    (cornerVox P s0 a b).get i = P.get i + pyAndOr (a = i) s0 + pyAndOr (b = i) s0 := by
  fin_cases a <;> fin_cases b <;> fin_cases i <;>
    simp [cornerVox, pyAndOr, Pt3.get, Fin.ext_iff]

lemma set_aligned {ps : K} (P : Pt3 K) (j : Fin 3) (v : K)
    (hP : ∀ i, stepAligned ps (P.get i)) (hv : stepAligned ps v) :
    ∀ i, stepAligned ps ((P.set j v).get i) := by
  intro i
  by_cases hij : i = j
  · subst hij
    rw [Pt3.get_set_self]
    exact hv
  · rw [Pt3.get_set_ne _ _ _ _ hij]
    exact hP i

lemma occTests_aligned (c : OccCtx K) (st : OccSt K)
    (hs : ∀ i, stepAligned c.pstep (c.s.get i))
    (hP : ∀ i, stepAligned c.pstep (st.P.get i)) :
    (∀ v ∈ (occTests c st).1, ∀ i, stepAligned c.pstep (v.get i)) ∧
      (∀ i, stepAligned c.pstep ((occTests c st).2.P.get i)) := by
  have hnbr : ∀ (a : Fin 3) (i : Fin 3), stepAligned c.pstep ((nbrVox st.P c.s a).get i) := by
    intro a i
    rw [nbrVox_get]
    exact stepAligned_add (hP i) (stepAligned_pyAndOr _ (hs i))
  have hcor : ∀ (a b : Fin 3) (i : Fin 3),
      stepAligned c.pstep ((cornerVox st.P (c.s.get 0) a b).get i) := by
    intro a b i
    rw [cornerVox_get]
    exact stepAligned_add (stepAligned_add (hP i) (stepAligned_pyAndOr _ (hs 0)))
      (stepAligned_pyAndOr _ (hs 0))
  have haddS : ∀ i, stepAligned c.pstep
      ((Pt3.mk (st.P.x + c.s.get 0) (st.P.y + c.s.get 1) (st.P.z + c.s.get 2)).get i) := by
    intro i
    rw [addS_get]
    exact stepAligned_add (hP i) (hs i)
  unfold occTests
  split_ifs with h1 h2 h3
  · refine ⟨?_, haddS⟩
    intro v hv
    rcases List.mem_cons.mp hv with rfl | hv
    · exact hnbr _
    rcases List.mem_cons.mp hv with rfl | hv
    · exact hcor _ _
    rcases List.mem_cons.mp hv with rfl | hv
    · exact haddS
    · cases hv
  · refine ⟨?_, haddS⟩
    intro v hv
    rcases List.mem_cons.mp hv with rfl | hv
    · exact hnbr _
    rcases List.mem_cons.mp hv with rfl | hv
    · exact hcor _ _
    rcases List.mem_cons.mp hv with rfl | hv
    · exact haddS
    · cases hv
  · refine ⟨?_, set_aligned _ _ _
      (set_aligned _ _ _ hP (stepAligned_add (hP _) (hs _))) ?_⟩
    · intro v hv
      rcases List.mem_cons.mp hv with rfl | hv
      · exact hnbr _
      rcases List.mem_cons.mp hv with rfl | hv
      · exact hcor _ _
      · cases hv
    · exact stepAligned_add (set_aligned _ _ _ hP (stepAligned_add (hP _) (hs _)) _) (hs _)
  · refine ⟨?_, set_aligned _ _ _
      (set_aligned _ _ _ hP (stepAligned_add (hP _) (hs _))) ?_⟩
    · intro v hv
      rcases List.mem_cons.mp hv with rfl | hv
      · exact hnbr _
      rcases List.mem_cons.mp hv with rfl | hv
      · exact hcor _ _
      · cases hv
    · exact stepAligned_add (set_aligned _ _ _ hP (stepAligned_add (hP _) (hs _)) _) (hs _)
  · refine ⟨?_, set_aligned _ _ _ hP (stepAligned_add (hP _) (hs _))⟩
    intro v hv
    rcases List.mem_cons.mp hv with rfl | hv
    · exact hnbr _
    · cases hv

lemma occPath_aligned (c : OccCtx K) (hs : ∀ i, stepAligned c.pstep (c.s.get i)) :
    ∀ (n : ℕ) (st : OccSt K), (∀ i, stepAligned c.pstep (st.P.get i)) →
      ∀ v ∈ occPath c n st, ∀ i, stepAligned c.pstep (v.get i) := by
  intro n
  induction n with
  | zero =>
    intro st _ v hv
    rw [occPath] at hv
    cases hv
  | succ n ih =>
    intro st hP v hv
    rw [occPath] at hv
    split_ifs at hv with hcond
    · rcases List.mem_append.mp hv with h1 | h1
      · exact (occTests_aligned c st hs hP).1 v h1
      · exact ih (occTests c st).2 (occTests_aligned c st hs hP).2 v h1
    · cases hv

lemma voxelPath_aligned (sc : Scene K) (p cam : Pt3 K) :
    ∀ v ∈ sc.voxelPath p cam, gridAligned sc.pstep v := by
  intro v hv
  have hP0 : ∀ i, stepAligned sc.pstep ((mkOccCtx sc p cam).2.P.get i) := by
    intro i
    have he : (mkOccCtx sc p cam).2.P =
        Pt3.mk (snap sc.pstep cam.x) (snap sc.pstep cam.y) (snap sc.pstep cam.z) := rfl
    rw [he]
    fin_cases i <;> exact snap_aligned _ _
  have hall : ∀ i, stepAligned sc.pstep (v.get i) := by
    unfold Scene.voxelPath at hv
    dsimp only at hv
    rcases List.mem_cons.mp hv with rfl | h1
    · exact hP0
    · exact occPath_aligned (mkOccCtx sc p cam).1 (mkOccCtx_s_aligned sc p cam) _ _ hP0 v h1
  exact ⟨hall 0, hall 1, hall 2⟩

/-- C1: when no voxel on the traversal path of the segment is opaque,
`Scene.occluded` returns false; and for any voxel on that path, inserting
it as an opaque cell through `make_opaque` (which succeeds, the path being
grid-aligned) flips the same query to true. -/
theorem occluded_clear_path_spec (sc : Scene K) (p cam : Pt3 K) (hps : 0 < sc.pstep)
    (hfree : ∀ v ∈ sc.voxelPath p cam, v ∉ sc.opq) :
    sc.occluded p cam = false ∧
    (∀ v ∈ sc.voxelPath p cam, ∃ s', Scene.make_opaque sc v = some s' ∧
      s'.occluded p cam = true) := by
  constructor
  · obtain ⟨b, hb⟩ := Option.isSome_iff_exists.mp (occluded_terminates sc p cam hps)
    have hchar := occludedO_char sc p cam b hb
    have hbf : b = false := by
      cases b with
      | false => rfl
      | true =>
        rcases hchar.mp rfl with ⟨v, hv, hvO⟩
        exact absurd hvO (hfree v hv)
    have hocc : sc.occluded p cam = (sc.occludedO p cam).getD false := rfl
    rw [hocc, hb, hbf]
    rfl
  · intro v hv
    have hal : gridAligned sc.pstep v := voxelPath_aligned sc p cam v hv
    have hmk := (make_opaque_spec sc v hps).2.1 hal
    refine ⟨_, hmk, ?_⟩
    obtain ⟨b', hb'⟩ := Option.isSome_iff_exists.mp (occluded_terminates
      (Scene.mk sc.xr sc.yr sc.zr sc.pstep sc.dstep (insert v sc.opq)) p cam hps)
    have hchar' := occludedO_char
      (Scene.mk sc.xr sc.yr sc.zr sc.pstep sc.dstep (insert v sc.opq)) p cam b' hb'
    have hpath : (Scene.mk sc.xr sc.yr sc.zr sc.pstep sc.dstep
        (insert v sc.opq)).voxelPath p cam = sc.voxelPath p cam := rfl
    have hbt : b' = true := hchar'.mpr ⟨v, by rw [hpath]; exact hv,
      Finset.mem_insert_self v sc.opq⟩
    have hocc' : (Scene.mk sc.xr sc.yr sc.zr sc.pstep sc.dstep
          (insert v sc.opq)).occluded p cam =
        ((Scene.mk sc.xr sc.yr sc.zr sc.pstep sc.dstep
          (insert v sc.opq)).occludedO p cam).getD false := rfl
    rw [hocc', hb', hbt]
    rfl

/-- Witness for C1: a concrete unobstructed axis-aligned query on a step-1
scene with an empty opaque set. -/
theorem occluded_clear_path_spec_witness :
    ((0:ℚ) < sW1.pstep ∧
      ∀ v ∈ sW1.voxelPath (Pt3.mk 2 0 0) (Pt3.mk 0 0 0), v ∉ sW1.opq) ∧
    (sW1.occluded (Pt3.mk 2 0 0) (Pt3.mk 0 0 0) = false ∧
      (∀ v ∈ sW1.voxelPath (Pt3.mk 2 0 0) (Pt3.mk 0 0 0), ∃ s',
        Scene.make_opaque sW1 v = some s' ∧
          s'.occluded (Pt3.mk 2 0 0) (Pt3.mk 0 0 0) = true)) := by
  have h1 : (0:ℚ) < sW1.pstep := by with_unfolding_all decide
  have h2 : ∀ v ∈ sW1.voxelPath (Pt3.mk 2 0 0) (Pt3.mk 0 0 0), v ∉ sW1.opq := by
    with_unfolding_all decide
  exact ⟨⟨h1, h2⟩, occluded_clear_path_spec sW1 (Pt3.mk 2 0 0) (Pt3.mk 0 0 0) h1 h2⟩

/-- Witness for C10 at a concrete scene with `pstep = 1`. -/
theorem occluded_terminates_witness :
    (0:ℚ) < sW1.pstep ∧ (sW1.occludedO (Pt3.mk 2 1 0) (Pt3.mk 0 0 0)).isSome :=
  ⟨by with_unfolding_all decide,
    occluded_terminates sW1 (Pt3.mk 2 1 0) (Pt3.mk 0 0 0) (by with_unfolding_all decide)⟩

lemma count_flatMap_zero {β γ : Type} [BEq γ] [LawfulBEq γ] (l : List β) (f : β → List γ)
    (dp : γ) (h : ∀ a ∈ l, dp ∉ f a) : (l.flatMap f).count dp = 0 := by
  rw [List.count_eq_zero]
  intro hmem
  rcases List.mem_flatMap.mp hmem with ⟨a, ha, hdp⟩
  exact h a ha hdp

lemma count_flatMap_single {β γ : Type} [BEq γ] [LawfulBEq γ] (l : List β)
    (f : β → List γ) (dp : γ) (c : β) (hnd : l.Nodup) (hc : c ∈ l)
    (h : ∀ a ∈ l, a ≠ c → dp ∉ f a) :
    (l.flatMap f).count dp = (f c).count dp := by
  induction l with
  | nil => cases hc
  | cons a t ih =>
    rw [List.flatMap_cons, List.count_append]
    rw [List.nodup_cons] at hnd
    rcases List.mem_cons.mp hc with rfl | hct
    · have ht0 : (t.flatMap f).count dp = 0 :=
        count_flatMap_zero t f dp (fun b hb =>
          h b (List.mem_cons_of_mem _ hb) (fun hbc => hnd.1 (hbc ▸ hb)))
      rw [ht0, Nat.add_zero]
    · have ha0 : (f a).count dp = 0 := by
        rw [List.count_eq_zero]
        exact h a (List.mem_cons_self a t)
          (fun hac => hnd.1 (show a ∈ t by rw [hac]; exact hct))
      rw [ha0, Nat.zero_add]
      exact ih hnd.2 hct (fun b hb hbc => h b (List.mem_cons_of_mem _ hb) hbc)

lemma count_map_inj {β γ : Type} [BEq β] [LawfulBEq β] [BEq γ] [LawfulBEq γ]
    (l : List β) (f : β → γ) (hf : Function.Injective f) (a : β) :
    (l.map f).count (f a) = l.count a := by
  induction l with
  | nil => rfl
  | cons b t ih =>
    rw [List.map_cons, List.count_cons, List.count_cons, ih]
    congr 1
    by_cases hba : b = a
    · subst hba
      simp
    · have h1 : (f b == f a) = false := by
        rw [beq_eq_false_iff_ne]
        exact fun hfb => hba (hf hfb)
      have h2 : (b == a) = false := by
        rw [beq_eq_false_iff_ne]
        exact hba
      rw [h1, h2]

lemma count_nodup_one {γ : Type} [BEq γ] [LawfulBEq γ] (l : List γ) (a : γ)
    (hnd : l.Nodup) (ha : a ∈ l) : l.count a = 1 := by
  induction l with
  | nil => cases ha
  | cons b t ih =>
    rw [List.nodup_cons] at hnd
    rw [List.count_cons]
    rcases List.mem_cons.mp ha with rfl | hat
    · rw [List.count_eq_zero.mpr hnd.1]
      simp
    · have hba : (b == a) = false := by
        rw [beq_eq_false_iff_ne]
        intro hab
        exact hnd.1 (by rw [hab]; exact hat)
      rw [hba, ih hnd.2 hat]
      simp

lemma arange_nodup (a b st : K) (hst : st ≠ 0) : (arange a b st).Nodup := by
  have hinj : Function.Injective (fun i : ℕ => a + (i : K) * st) := by
    intro i j hij
    simp only at hij
    have h1 : (i : K) * st = (j : K) * st := by linarith
    have h2 : (i : K) = (j : K) := mul_right_cancel₀ hst h1
    exact_mod_cast h2
  unfold arange
  rw [List.nodup_map_iff hinj]
  exact List.nodup_range _

lemma zero_mem_arange (b st : K) (hb : 0 < b) (hst : 0 < st) : (0 : K) ∈ arange 0 b st := by
  unfold arange
  rw [List.mem_map]
  refine ⟨0, List.mem_range.mpr ?_, by push_cast; ring⟩
  have hq : 0 < (b - 0) / st := by
    rw [sub_zero]
    positivity
  have h1 : 1 ≤ ⌈(b - 0) / st⌉ := Int.ceil_pos.mpr hq
  omega

lemma natMul_mem_arange (st : K) (hst : 0 < st) (n : ℕ) :
    ((n : K) * st) ∈ arange 0 ((n : K) * st + st) st := by
  unfold arange
  rw [List.mem_map]
  refine ⟨n, List.mem_range.mpr ?_, by push_cast; ring⟩
  have hq : ((n : K) * st + st - 0) / st = (n : K) + 1 := by
    field_simp
    ring
  have hc : ⌈((n : K) * st + st - 0) / st⌉ = (n : ℤ) + 1 := by
    rw [hq]
    have hcast : ((n : K) + 1) = ((n + 1 : ℕ) : K) := by push_cast; ring
    rw [hcast, Int.ceil_natCast]
    push_cast
    ring
  omega

lemma mem_dirPairs_branch_fst (dstep piv rho : K) (pr : K × K)
    (h : pr ∈ (if rho = 0 ∨ rho = piv then [(rho, (0 : K))]
      else (arange 0 (2 * piv) dstep).map (fun eta => (rho, eta)))) : pr.1 = rho := by
  split_ifs at h
  · rcases List.mem_singleton.mp h with rfl
    rfl
  · rcases List.mem_map.mp h with ⟨eta, _, rfl⟩
    rfl

lemma dirPairs_count_pole0 (dstep piv : K) (hd : 0 < dstep) (hpiv : 0 < piv) :
    (dirPairs dstep piv).count ((0 : K), (0 : K)) = 1 := by
  unfold dirPairs
  rw [count_flatMap_single _ _ _ (0 : K)
    (arange_nodup _ _ _ (ne_of_gt hd))
    (zero_mem_arange _ _ (by linarith) hd)
    ?_]
  · rw [if_pos (Or.inl rfl)]
    simp
  · intro a _ hane hmem
    have h1 : ((0 : K), (0 : K)).1 = a := mem_dirPairs_branch_fst dstep piv a _ hmem
    exact hane h1.symm

lemma dirPairs_count_polePi (dstep piv : K) (hd : 0 < dstep) (n : ℕ) (hn : 1 ≤ n)
    (hpe : piv = (n : K) * dstep) :
    (dirPairs dstep piv).count (piv, (0 : K)) = 1 := by
  have hpiv : 0 < piv := by
    rw [hpe]
    have h1 : (1 : K) ≤ (n : K) := by exact_mod_cast hn
    nlinarith
  unfold dirPairs
  rw [count_flatMap_single _ _ _ piv
    (arange_nodup _ _ _ (ne_of_gt hd))
    (by rw [hpe]; exact natMul_mem_arange dstep hd n)
    ?_]
  · rw [if_pos (Or.inr rfl)]
    simp
  · intro a _ hane hmem
    have h1 : (piv, (0 : K)).1 = a := mem_dirPairs_branch_fst dstep piv a _ hmem
    exact hane h1.symm

lemma dirPairs_count_cross (dstep piv rho η : K) (hd : 0 < dstep)
    (hrho : rho ∈ arange 0 (piv + dstep) dstep) (h0 : rho ≠ 0) (hp : rho ≠ piv)
    (hη : η ∈ arange 0 (2 * piv) dstep) :
    (dirPairs dstep piv).count (rho, η) = 1 := by
  unfold dirPairs
  rw [count_flatMap_single _ _ _ rho (arange_nodup _ _ _ (ne_of_gt hd)) hrho ?_]
  · rw [if_neg (by tauto)]
    have hinj : Function.Injective (fun eta : K => (rho, eta)) := by
      intro u v huv
      simpa using huv
    rw [count_map_inj _ _ hinj]
    exact List.count_eq_one_of_mem (arange_nodup _ _ _ (ne_of_gt hd)) hη
  · intro a _ hane hmem
    have h1 : (rho, η).1 = a := mem_dirPairs_branch_fst dstep piv a _ hmem
    exact hane h1.symm

lemma dirPairs_count_poleEta (dstep piv η : K) (hη : η ≠ 0) :
    (dirPairs dstep piv).count ((0 : K), η) = 0 ∧
      (dirPairs dstep piv).count (piv, η) = 0 := by
  constructor <;>
  · unfold dirPairs
    apply count_flatMap_zero
    intro a _ hmem
    split_ifs at hmem
    · rcases List.mem_singleton.mp hmem with h1
      exact hη (congrArg Prod.snd h1)
    · rcases List.mem_map.mp hmem with ⟨eta, _, h1⟩
      have h2 := congrArg Prod.fst h1
      simp only at h2
      tauto

lemma mem_cellPoints (s : Scene K) (piv x y z : K) (dp : DPt K)
    (h : dp ∈ cellPoints s piv x y z) : dp.x = x ∧ dp.y = y ∧ dp.z = z := by
  unfold cellPoints at h
  split_ifs at h
  · cases h
  · rcases List.mem_map.mp h with ⟨pr, _, rfl⟩
    exact ⟨rfl, rfl, rfl⟩

lemma mem_yzLevel (s : Scene K) (piv x : K) (dp : DPt K)
    (h : dp ∈ (arange s.yr.1 s.yr.2 s.pstep).flatMap (fun y =>
      (arange s.zr.1 s.zr.2 s.pstep).flatMap (fun z => cellPoints s piv x y z))) :
    dp.x = x := by
  rcases List.mem_flatMap.mp h with ⟨y, _, h2⟩
  rcases List.mem_flatMap.mp h2 with ⟨z, _, h3⟩
  exact (mem_cellPoints s piv x y z dp h3).1

lemma mem_zLevel (s : Scene K) (piv x y : K) (dp : DPt K)
    (h : dp ∈ (arange s.zr.1 s.zr.2 s.pstep).flatMap (fun z => cellPoints s piv x y z)) :
    dp.y = y := by
  rcases List.mem_flatMap.mp h with ⟨z, _, h3⟩
  exact (mem_cellPoints s piv x y z dp h3).2.1

lemma gen_count_cell (s : Scene K) (piv cx cy cz : K) (dO : Option (K × K))
    (hps : s.pstep ≠ 0) (hx : cx ∈ arange s.xr.1 s.xr.2 s.pstep)
    (hy : cy ∈ arange s.yr.1 s.yr.2 s.pstep) (hz : cz ∈ arange s.zr.1 s.zr.2 s.pstep) :
    (s.generate_points piv).count (DPt.mk cx cy cz dO) =
      (cellPoints s piv cx cy cz).count (DPt.mk cx cy cz dO) := by
  unfold Scene.generate_points
  rw [count_flatMap_single _ _ _ cx (arange_nodup _ _ _ hps) hx
    (fun a _ hane hmem => hane ((mem_yzLevel s piv a _ hmem).symm))]
  rw [count_flatMap_single _ _ _ cy (arange_nodup _ _ _ hps) hy
    (fun a _ hane hmem => hane ((mem_zLevel s piv cx a _ hmem).symm))]
  rw [count_flatMap_single _ _ _ cz (arange_nodup _ _ _ hps) hz
    (fun a _ hane hmem => hane ((mem_cellPoints s piv cx cy a _ hmem).2.2.symm))]

lemma cellPoints_count_dir (s : Scene K) (piv cx cy cz : K) (pr : K × K)
    (hop : Pt3.mk cx cy cz ∉ s.opq) :
    (cellPoints s piv cx cy cz).count (DPt.mk cx cy cz (some pr)) =
      (dirPairs s.dstep piv).count pr := by
  unfold cellPoints
  rw [if_neg hop]
  have hinj : Function.Injective (fun pr : K × K => DPt.mk cx cy cz (some pr)) := by
    intro u v huv
    simpa using huv
  exact count_map_inj (dirPairs s.dstep piv)
    (fun pr : K × K => DPt.mk cx cy cz (some pr)) hinj pr

lemma cellPoints_count_opaque (s : Scene K) (piv cx cy cz : K) (dO : Option (K × K))
    (hop : Pt3.mk cx cy cz ∈ s.opq) :
    (cellPoints s piv cx cy cz).count (DPt.mk cx cy cz dO) = 0 := by
  unfold cellPoints
  rw [if_pos hop]
  rfl

/-- C5 (amended): for every grid cell of the region, `generate_points`
skips the cell entirely when it is opaque; otherwise it emits the pole
`rho = 0` exactly once (with azimuth 0, and never with a nonzero azimuth),
emits the pole `rho = pi` exactly once with azimuth 0 whenever `pi` is an
exact sampled value (`pi = n * dstep`), and emits every other sampled
`rho` crossed with every sampled azimuth of `[0, 2*pi)` exactly once. -/
theorem generate_points_spec (s : Scene K) (piv cx cy cz : K)
    (hps : 0 < s.pstep) (hd : 0 < s.dstep) (hpiv : 0 < piv)
    (hx : cx ∈ arange s.xr.1 s.xr.2 s.pstep)
    (hy : cy ∈ arange s.yr.1 s.yr.2 s.pstep)
    (hz : cz ∈ arange s.zr.1 s.zr.2 s.pstep) :
    (Pt3.mk cx cy cz ∉ s.opq →
      (s.generate_points piv).count (DPt.mk cx cy cz (some (0, 0))) = 1 ∧
      (∀ η : K, η ≠ 0 →
        (s.generate_points piv).count (DPt.mk cx cy cz (some (0, η))) = 0 ∧
        (s.generate_points piv).count (DPt.mk cx cy cz (some (piv, η))) = 0) ∧
      (∀ n : ℕ, 1 ≤ n → piv = (n : K) * s.dstep →
        (s.generate_points piv).count (DPt.mk cx cy cz (some (piv, 0))) = 1) ∧
      (∀ rho ∈ arange 0 (piv + s.dstep) s.dstep, rho ≠ 0 → rho ≠ piv →
        ∀ η ∈ arange 0 (2 * piv) s.dstep,
          (s.generate_points piv).count (DPt.mk cx cy cz (some (rho, η))) = 1)) ∧
    (Pt3.mk cx cy cz ∈ s.opq →
      ∀ dO : Option (K × K),
        (s.generate_points piv).count (DPt.mk cx cy cz dO) = 0) := by
  have hps' : s.pstep ≠ 0 := ne_of_gt hps
  have hred : ∀ dO : Option (K × K),
      (s.generate_points piv).count (DPt.mk cx cy cz dO) =
        (cellPoints s piv cx cy cz).count (DPt.mk cx cy cz dO) :=
    fun dO => gen_count_cell s piv cx cy cz dO hps' hx hy hz
  constructor
  · intro hop
    refine ⟨?_, ?_, ?_, ?_⟩
    · rw [hred, cellPoints_count_dir s piv cx cy cz _ hop]
      exact dirPairs_count_pole0 s.dstep piv hd hpiv
    · intro η hη
      constructor
      · rw [hred, cellPoints_count_dir s piv cx cy cz _ hop]
        exact (dirPairs_count_poleEta s.dstep piv η hη).1
      · rw [hred, cellPoints_count_dir s piv cx cy cz _ hop]
        exact (dirPairs_count_poleEta s.dstep piv η hη).2
    · intro n hn hpe
      rw [hred, cellPoints_count_dir s piv cx cy cz _ hop]
      exact dirPairs_count_polePi s.dstep piv hd n hn hpe
    · intro rho hrho h0 hp η hη
      rw [hred, cellPoints_count_dir s piv cx cy cz _ hop]
      exact dirPairs_count_cross s.dstep piv rho η hd hrho h0 hp hη
  · intro hop dO
    rw [hred]
    exact cellPoints_count_opaque s piv cx cy cz dO hop

/-- Counterexample to C5 as stated: with grid step 1, angular step 1 and
the exact float value of `math.pi`, the cell `(0,0,0)` lies in the region
and is not opaque, yet the pole `rho = pi` is never emitted (its count is
0, not 1): the sampled `rho` values `0,1,2,3,4` never equal `pi`. -/
theorem generate_points_pi_pole_counterexample :
    (Pt3.mk (0:ℚ) 0 0 ∉ sW5.opq) ∧
    ((0:ℚ) ∈ arange sW5.xr.1 sW5.xr.2 sW5.pstep) ∧
    ((0:ℚ) ∈ arange sW5.yr.1 sW5.yr.2 sW5.pstep) ∧
    ((0:ℚ) ∈ arange sW5.zr.1 sW5.zr.2 sW5.pstep) ∧
    (sW5.generate_points mathPi).count (DPt.mk (0:ℚ) 0 0 (some (mathPi, 0))) = 0 := by
  with_unfolding_all decide

/-- Witness for the amended C5 at a concrete one-cell scene with
`dstep = 1` and the stand-in value 2 for the float `pi` constant (so that
`pi` is exactly sampled: `2 = 2 * dstep`). -/
theorem generate_points_spec_witness :
    ((0:ℚ) < sW5.pstep ∧ (0:ℚ) < sW5.dstep ∧ (0:ℚ) < 2 ∧
      ((0:ℚ) ∈ arange sW5.xr.1 sW5.xr.2 sW5.pstep) ∧
      ((0:ℚ) ∈ arange sW5.yr.1 sW5.yr.2 sW5.pstep) ∧
      ((0:ℚ) ∈ arange sW5.zr.1 sW5.zr.2 sW5.pstep)) ∧
    ((Pt3.mk (0:ℚ) 0 0 ∉ sW5.opq →
      (sW5.generate_points 2).count (DPt.mk (0:ℚ) 0 0 (some (0, 0))) = 1 ∧
      (∀ η : ℚ, η ≠ 0 →
        (sW5.generate_points 2).count (DPt.mk (0:ℚ) 0 0 (some (0, η))) = 0 ∧
        (sW5.generate_points 2).count (DPt.mk (0:ℚ) 0 0 (some (2, η))) = 0) ∧
      (∀ n : ℕ, 1 ≤ n → (2:ℚ) = (n : ℚ) * sW5.dstep →
        (sW5.generate_points 2).count (DPt.mk (0:ℚ) 0 0 (some (2, 0))) = 1) ∧
      (∀ rho ∈ arange 0 ((2:ℚ) + sW5.dstep) sW5.dstep, rho ≠ 0 → rho ≠ 2 →
        ∀ η ∈ arange 0 (2 * (2:ℚ)) sW5.dstep,
          (sW5.generate_points 2).count (DPt.mk (0:ℚ) 0 0 (some (rho, η))) = 1)) ∧
    (Pt3.mk (0:ℚ) 0 0 ∈ sW5.opq →
      ∀ dO : Option (ℚ × ℚ),
        (sW5.generate_points 2).count (DPt.mk (0:ℚ) 0 0 dO) = 0)) := by
  have h1 : (0:ℚ) < sW5.pstep := by with_unfolding_all decide
  have h2 : (0:ℚ) < sW5.dstep := by with_unfolding_all decide
  have h3 : (0:ℚ) < 2 := by with_unfolding_all decide
  have h4 : (0:ℚ) ∈ arange sW5.xr.1 sW5.xr.2 sW5.pstep := by with_unfolding_all decide
  have h5 : (0:ℚ) ∈ arange sW5.yr.1 sW5.yr.2 sW5.pstep := by with_unfolding_all decide
  have h6 : (0:ℚ) ∈ arange sW5.zr.1 sW5.zr.2 sW5.pstep := by with_unfolding_all decide
  exact ⟨⟨h1, h2, h3, h4, h5, h6⟩,
    generate_points_spec sW5 2 0 0 0 h1 h2 h3 h4 h5 h6⟩

end Adolphus
